import Mathlib

/-!
Verification development for the incremental build-and-notify pipeline of a
Ghost theme development tool (`src/index.js`).  The JavaScript source is
shallowly embedded: pure helpers become Lean functions, the mutable
module-level `Map` (`tree`) becomes an association list threaded explicitly,
and external capabilities (the esbuild bundler, the websocket transport,
`JSON.parse`, timers) are parameters or explicit event traces.
-/

/-- Character-list prefix test; `isPrefixList p l` is true when `p` is an
initial segment of `l`.  Used to embed JavaScript's `String.prototype`
substring tests on code-unit sequences. -/
def isPrefixList : List Char → List Char → Bool
  | [], _ => true
  | _ :: _, [] => false
  | a :: as, b :: bs => a == b && isPrefixList as bs

/-- `containsList p l` is true when `p` occurs contiguously inside `l`. -/
def containsList (pat : List Char) : List Char → Bool
  | [] => isPrefixList pat []
  | c :: rest => isPrefixList pat (c :: rest) || containsList pat rest

/-- Embedding of JavaScript `s.includes(pat)` (substring containment). -/
def strContains (s pat : String) : Bool :=
  containsList pat.data s.data

/-- Embedding of JavaScript `s.endsWith(pat)`. -/
def strEndsWith (s pat : String) : Bool :=
  isPrefixList pat.data.reverse s.data.reverse

theorem isPrefixList_iff_append (p l : List Char) :
    isPrefixList p l = true ↔ ∃ t, l = p ++ t := by
  induction p generalizing l with
  | nil => simp [isPrefixList]
  | cons a as ih =>
    cases l with
    | nil =>
      simp [isPrefixList]
    | cons b bs =>
      simp only [isPrefixList, Bool.and_eq_true, beq_iff_eq, ih, List.cons_append,
        List.cons.injEq]
      constructor
      · rintro ⟨rfl, t, rfl⟩; exact ⟨t, rfl, rfl⟩
      · rintro ⟨t, rfl, rfl⟩; exact ⟨rfl, t, rfl⟩

theorem isPrefixList_self_append (p t : List Char) :
    isPrefixList p (p ++ t) = true :=
  (isPrefixList_iff_append p (p ++ t)).2 ⟨t, rfl⟩

theorem containsList_iff_append (p l : List Char) :
    containsList p l = true ↔ ∃ u v, l = u ++ p ++ v := by
  induction l with
  | nil =>
    simp only [containsList, isPrefixList_iff_append]
    constructor
    · rintro ⟨t, h⟩
      exact ⟨[], t, by simpa using h⟩
    · rintro ⟨u, v, h⟩
      exact ⟨u ++ v, by
        rcases List.append_eq_nil.1 h.symm with ⟨h1, h2⟩
        rcases List.append_eq_nil.1 h1 with ⟨h3, h4⟩
        simp [h2, h3, h4]⟩
  | cons c rest ih =>
    simp only [containsList, Bool.or_eq_true, isPrefixList_iff_append, ih]
    constructor
    · rintro (⟨t, h⟩ | ⟨u, v, h⟩)
      · exact ⟨[], t, by simpa using h⟩
      · exact ⟨c :: u, v, by simp [h]⟩
    · rintro ⟨u, v, h⟩
      cases u with
      | nil => exact Or.inl ⟨v, by simpa using h⟩
      | cons x xs =>
        right
        refine ⟨xs, v, ?_⟩
        have h' : x :: (xs ++ p ++ v) = c :: rest := by simpa using h.symm
        exact (List.cons.injEq x (xs ++ p ++ v) c rest ▸ h').2.symm

theorem strEndsWith_iff (s pat : String) :
    strEndsWith s pat = true ↔ ∃ u, s.data = u ++ pat.data := by
  unfold strEndsWith
  rw [isPrefixList_iff_append]
  constructor
  · rintro ⟨t, h⟩
    refine ⟨t.reverse, ?_⟩
    have := congrArg List.reverse h
    simpa using this
  · rintro ⟨u, h⟩
    exact ⟨u.reverse, by simp [h]⟩

theorem strContains_iff (s pat : String) :
    strContains s pat = true ↔ ∃ u v, s.data = u ++ pat.data ++ v :=
  containsList_iff_append pat.data s.data

/-- Two suffix patterns matched by the same string agree on their overlap:
one of the reversed patterns is a prefix of the other. -/
theorem prefix_total_of_common (p q l : List Char)
    (hp : isPrefixList p l = true) (hq : isPrefixList q l = true) :
    isPrefixList p q = true ∨ isPrefixList q p = true := by
  induction l generalizing p q with
  | nil =>
    cases p with
    | nil => exact Or.inl rfl
    | cons a as => exact absurd hp (by simp [isPrefixList])
  | cons b bs ih =>
    cases p with
    | nil => exact Or.inl rfl
    | cons a as =>
      cases q with
      | nil => exact Or.inr rfl
      | cons c cs =>
        simp only [isPrefixList, Bool.and_eq_true, beq_iff_eq] at hp hq
        rcases hp with ⟨rfl, hp2⟩
        rcases hq with ⟨rfl, hq2⟩
        rcases ih as cs hp2 hq2 with h | h
        · exact Or.inl (by simp [isPrefixList, h])
        · exact Or.inr (by simp [isPrefixList, h])

/-- Distinct extension suffixes are mutually exclusive: if neither reversed
pattern is a prefix of the other, no string ends with both. -/
theorem strEndsWith_exclusive (s p q : String)
    (hpq : isPrefixList p.data.reverse q.data.reverse = false)
    (hqp : isPrefixList q.data.reverse p.data.reverse = false)
    (hp : strEndsWith s p = true) : strEndsWith s q = false := by
  by_contra h
  have hq : strEndsWith s q = true := by
    cases hval : strEndsWith s q with
    | false => exact absurd hval h
    | true => rfl
  rcases prefix_total_of_common _ _ _ hp hq with hc | hc
  · rw [hpq] at hc; exact Bool.false_ne_true hc
  · rw [hqp] at hc; exact Bool.false_ne_true hc

/-! ## Dependency Index

`src/index.js` line 288: `const tree = new Map();` — a process-lifetime map
from input-file path to owning entry-point path.  Embedded as an association
list with `Map.set` semantics (replace the binding in place when the key is
present, append otherwise) and `Map.get` semantics (lookup, `none` for the
JavaScript `undefined`). -/

/-- The Dependency Index: association list from input-file path to the
entry-point path that last claimed it (embeds the `tree` Map). -/
abbrev DepIndex := List (String × String)

/-- Embeds `tree.set(k, v)`. -/
def treeSet (t : DepIndex) (k v : String) : DepIndex :=
  if (List.any t fun p => p.1 == k) then
    List.map (fun p => if p.1 == k then (k, v) else p) t
  else t ++ [(k, v)]

/-- Embeds `tree.get(k)`. -/
def treeGet (t : DepIndex) (k : String) : Option String :=
  (List.find? (fun p => p.1 == k) t).map (fun p => p.2)

/-- The key multiset of the Dependency Index, in insertion order. -/
def treeKeys (t : DepIndex) : List String :=
  List.map (fun p => p.1) t

theorem treeGet_nil (k : String) : treeGet [] k = none := rfl

theorem treeGet_cons (p : String × String) (rest : DepIndex) (k : String) :
    treeGet (p :: rest) k = if p.1 == k then some p.2 else treeGet rest k := by
  by_cases h : (p.1 == k) = true
  · simp [treeGet, List.find?_cons_of_pos _ h, h]
  · simp [treeGet, List.find?_cons_of_neg _ h, h]

theorem treeGet_replace_ne (t : DepIndex) (k v q : String) (hne : q ≠ k) :
    treeGet (List.map (fun p => if p.1 == k then (k, v) else p) t) q = treeGet t q := by
  have hkq : ¬(k = q) := fun h => hne h.symm
  induction t with
  | nil => rfl
  | cons p rest ih =>
    cases hpk : (p.1 == k) with
    | true =>
      have hp' : p.1 = k := by simpa using hpk
      simpa [treeGet_cons, hpk, hp', hkq] using ih
    | false =>
      simp only [List.map_cons, hpk, Bool.false_eq_true, if_false, treeGet_cons]
      cases hpq : (p.1 == q) with
      | true => rfl
      | false => simpa using ih

theorem treeGet_replace_self (t : DepIndex) (k v : String)
    (h : (List.any t fun p => p.1 == k) = true) :
    treeGet (List.map (fun p => if p.1 == k then (k, v) else p) t) k = some v := by
  induction t with
  | nil => simp at h
  | cons p rest ih =>
    cases hpk : (p.1 == k) with
    | true =>
      have hp' : p.1 = k := by simpa using hpk
      simp [treeGet_cons, hpk, hp']
    | false =>
      rw [List.any_cons, hpk, Bool.false_or] at h
      simp only [List.map_cons, hpk, Bool.false_eq_true, if_false, treeGet_cons, hpk]
      exact ih h

theorem treeGet_eq_none_of_not_any (t : DepIndex) (k : String)
    (h : (List.any t fun p => p.1 == k) = false) : treeGet t k = none := by
  induction t with
  | nil => rfl
  | cons p rest ih =>
    rw [List.any_cons, Bool.or_eq_false_iff] at h
    rw [treeGet_cons, h.1]
    simpa using ih h.2

theorem treeGet_append (t₁ t₂ : DepIndex) (k : String) (h : treeGet t₁ k = none) :
    treeGet (t₁ ++ t₂) k = treeGet t₂ k := by
  induction t₁ with
  | nil => rfl
  | cons p rest ih =>
    rw [treeGet_cons] at h
    cases hpk : (p.1 == k) with
    | true => rw [hpk] at h; simp at h
    | false =>
      rw [hpk] at h
      rw [List.cons_append, treeGet_cons, hpk]
      simpa using ih (by simpa using h)

theorem treeGet_set_self (t : DepIndex) (k v : String) :
    treeGet (treeSet t k v) k = some v := by
  unfold treeSet
  cases h : (List.any t fun p => p.1 == k) with
  | true =>
    rw [if_pos rfl]
    exact treeGet_replace_self t k v h
  | false =>
    rw [if_neg (by simp)]
    rw [treeGet_append _ _ _ (treeGet_eq_none_of_not_any t k h), treeGet_cons]
    simp

theorem treeGet_set_ne (t : DepIndex) (k v q : String) (hne : q ≠ k) :
    treeGet (treeSet t k v) q = treeGet t q := by
  have hkq : ¬(k = q) := fun h => hne h.symm
  unfold treeSet
  cases h : (List.any t fun p => p.1 == k) with
  | true =>
    rw [if_pos rfl]
    exact treeGet_replace_ne t k v q hne
  | false =>
    rw [if_neg (by simp)]
    have hone : treeGet [(k, v)] q = none := by
      rw [treeGet_cons]
      simp [hkq, treeGet_nil]
    induction t with
    | nil => simpa [treeGet_nil] using hone
    | cons p rest ih =>
      rw [List.cons_append, treeGet_cons, treeGet_cons]
      cases hpq : (p.1 == q) with
      | true => rfl
      | false =>
        rw [List.any_cons, Bool.or_eq_false_iff] at h
        simpa using ih h.2

theorem treeKeys_set (t : DepIndex) (k v : String) :
    treeKeys (treeSet t k v) =
      if (List.any t fun p => p.1 == k) then treeKeys t else treeKeys t ++ [k] := by
  unfold treeSet treeKeys
  cases h : (List.any t fun p => p.1 == k) with
  | true =>
    rw [if_pos rfl, if_pos rfl, List.map_map]
    apply List.map_congr_left
    intro p _
    cases hpk : (p.1 == k) with
    | true =>
      have hp' : p.1 = k := by simpa using hpk
      simp [hpk, hp']
    | false =>
      have hp' : ¬(p.1 = k) := by simpa using hpk
      simp [hp']
  | false =>
    rw [if_neg (by simp), if_neg (by simp), List.map_append]
    rfl

theorem treeKeys_set_nodup (t : DepIndex) (k v : String)
    (h : (treeKeys t).Nodup) : (treeKeys (treeSet t k v)).Nodup := by
  rw [treeKeys_set]
  cases hm : (List.any t fun p => p.1 == k) with
  | true => rw [if_pos rfl]; exact h
  | false =>
    rw [if_neg (by simp)]
    have hk : k ∉ treeKeys t := by
      intro hc
      rcases List.mem_map.1 hc with ⟨p, hp, hpk⟩
      have : (List.any t fun p => p.1 == k) = true :=
        List.any_eq_true.2 ⟨p, hp, by simpa using hpk⟩
      rw [hm] at this
      exact Bool.false_ne_true this
    simpa [List.nodup_append] using ⟨h, hk⟩

theorem treeGet_eq_none_iff (t : DepIndex) (k : String) :
    treeGet t k = none ↔ k ∉ treeKeys t := by
  induction t with
  | nil => simp [treeGet_nil, treeKeys]
  | cons p rest ih =>
    rw [treeGet_cons]
    cases hpk : (p.1 == k) with
    | true =>
      have hp' : p.1 = k := by simpa using hpk
      simp [treeKeys, hp']
    | false =>
      have hp' : ¬(p.1 = k) := by simpa using hpk
      simp only [Bool.false_eq_true, if_false, ih, treeKeys, List.map_cons,
        List.mem_cons, not_or]
      constructor
      · intro h
        exact ⟨fun hc => hp' hc.symm, h⟩
      · intro h
        exact h.2

/-! ## Build Executor

Embeds `formatBytes` (`src/index.js` lines 183–203) and `writeAssets`
(lines 290–355).  The esbuild bundling capability is an external
collaborator; it appears as a parameter producing, per entry point, the
consumed input files (`res.metafile.inputs`) and the produced output
artifacts with byte sizes (`res.metafile.outputs`).  JavaScript `Number`
arithmetic inside `formatBytes` (`Math.log`, `toFixed`, `parseFloat`) is
idealized as exact arithmetic on naturals: `Math.floor(Math.log b / Math.log 1024)`
becomes the integer base-1024 logarithm and `toFixed` becomes exact
round-half-up to `dm` decimal places. -/

/-- Left-pad a digit string with zeros to width `w` (decimal rendering of
the fractional part of `toFixed`). -/
def padLeftZeros (s : String) (w : Nat) : String :=
  String.mk (List.replicate (w - s.length) '0') ++ s

/-- Drop trailing zero digits (the effect of `parseFloat` re-rendering a
`toFixed` string: `"1.50"` becomes `"1.5"`, `"1.00"` becomes `"1"`). -/
def stripTrailingZeros (s : String) : String :=
  String.mk ((s.data.reverse.dropWhile fun c => c == '0').reverse)

/-- Fuel-driven integer base-`b` logarithm: the number of times `n` can be
divided by `b` before falling below `b`.  Idealizes
`Math.floor(Math.log(n) / Math.log(b))` for `b = 1024`. -/
def intLogFuel (b : Nat) : Nat → Nat → Nat
  | 0, _ => 0
  | fuel + 1, n => if n < b then 0 else intLogFuel b fuel (n / b) + 1

/-- Integer base-`b` logarithm with enough fuel to terminate. -/
def intLog (b n : Nat) : Nat := intLogFuel b n n

/-- `toFixed` scaling: the integer nearest `num/den * 10^dm`, ties rounded
up, as JavaScript's `toFixed` specifies for positive values. -/
def toFixedNat (num den dm : Nat) : Nat :=
  (2 * num * 10 ^ dm + den) / (2 * den)

/-- Decimal rendering of `parseFloat((num/den).toFixed(dm))`. -/
def formatDecimal (num den dm : Nat) : String :=
  let scaled := toFixedNat num den dm
  let intPart := scaled / 10 ^ dm
  let frac := stripTrailingZeros (padLeftZeros (toString (scaled % 10 ^ dm)) dm)
  if frac = "" then toString intPart else toString intPart ++ "." ++ frac

/-- Embeds `formatBytes(bytes, decimals)` (`src/index.js` lines 183–203):
`"0 Bytes"` for zero (falsy) input, otherwise the value scaled into binary
units at factor 1024, rendered to `decimals` places (clamped at 0 below)
and `parseFloat`-normalized, with the unit name from the `sizes` array
(`undefined` rendering for an index past the end, as in JavaScript). -/
def formatBytes (bytes : Nat) (decimals : Int) : String :=
  if bytes == 0 then "0 Bytes"
  else
    let k := 1024
    let dm := if decimals < 0 then 0 else decimals.toNat
    let sizes := ["Bytes", "KiB", "MiB", "GiB", "TiB", "PiB", "EiB", "ZiB", "YiB"]
    let i := intLog k bytes
    formatDecimal bytes (k ^ i) dm ++ " " ++ sizes.getD i "undefined"

/-- What one bundler invocation reports for one entry point: the input
files consumed (`res.metafile.inputs` keys) and the output artifacts with
their byte sizes (`res.metafile.outputs`). -/
structure BuildOutcome where
  inputs : List String
  outputs : List (String × Nat)

/-- One entry of the returned result list: artifact path and formatted
size (`{ file: key, value: formatBytes(value.bytes) }`). -/
structure FileVal where
  file : String
  value : String
deriving DecidableEq

/-- Embeds the post-build Dependency Index update (`src/index.js` lines
335–337): every consumed input is recorded under the current entry. -/
def recordInputs (t : DepIndex) (inputs : List String) (entry : String) : DepIndex :=
  inputs.foldl (fun acc input => treeSet acc input entry) t

/-- Embeds the output-collection reduce (`src/index.js` lines 339–348):
keys containing `"map"` are skipped, the rest are paired with their
formatted byte size. -/
def collectOutputs (outputs : List (String × Nat)) : List FileVal :=
  outputs.foldl
    (fun acc kv =>
      if strContains kv.1 "map" then acc
      else acc ++ [⟨kv.1, formatBytes kv.2 2⟩])
    []

/-- Embeds the `writeAssets` loop (`src/index.js` lines 323–351) without
wall-clock timing: entries are processed sequentially; for each, the
bundler runs, its inputs are recorded in the Dependency Index, and its
non-skipped outputs are appended to the result list. -/
def writeAssets (build : String → BuildOutcome) (entryPoints : List String)
    (t : DepIndex) : DepIndex × List FileVal :=
  entryPoints.foldl
    (fun acc entry =>
      let res := build entry
      (recordInputs acc.1 res.inputs entry, acc.2 ++ collectOutputs res.outputs))
    (t, [])

/-- Embeds the root-entry test of the Change Router (`src/index.js` line
416): the regular expression `index\.(css|js|ts)$`. -/
def isRootEntry (path : String) : Bool :=
  strEndsWith path "index.css" || strEndsWith path "index.js" || strEndsWith path "index.ts"

/-- Embeds the entry-point resolution of the Change Router (`src/index.js`
lines 414–418): a changed path matching the root-entry convention is its
own entry; otherwise the Dependency Index decides; `none` means
unresolved. -/
def resolve (t : DepIndex) (path : String) : Option String :=
  if isRootEntry path then some path else treeGet t path

theorem treeGet_recordInputs (t : DepIndex) (inputs : List String) (entry x : String) :
    treeGet (recordInputs t inputs entry) x =
      if x ∈ inputs then some entry else treeGet t x := by
  induction inputs generalizing t with
  | nil => simp [recordInputs]
  | cons i is ih =>
    have hstep : recordInputs t (i :: is) entry = recordInputs (treeSet t i entry) is entry := by
      simp [recordInputs]
    rw [hstep, ih]
    by_cases hmem : x ∈ is
    · simp [hmem]
    · by_cases hxi : x = i
      · simp [hmem, hxi, treeGet_set_self]
      · simp [hmem, hxi, treeGet_set_ne t i entry x hxi]

theorem treeKeys_recordInputs_nodup (t : DepIndex) (inputs : List String)
    (entry : String) (h : (treeKeys t).Nodup) :
    (treeKeys (recordInputs t inputs entry)).Nodup := by
  induction inputs generalizing t with
  | nil => simpa [recordInputs] using h
  | cons i is ih =>
    have hstep : recordInputs t (i :: is) entry = recordInputs (treeSet t i entry) is entry := by
      simp [recordInputs]
    rw [hstep]
    exact ih _ (treeKeys_set_nodup t i entry h)

theorem collectOutputs_foldl (outputs : List (String × Nat)) (acc : List FileVal) :
    outputs.foldl
        (fun acc kv =>
          if strContains kv.1 "map" then acc
          else acc ++ [⟨kv.1, formatBytes kv.2 2⟩])
        acc =
      acc ++ (outputs.filter fun kv => !(strContains kv.1 "map")).map
        (fun kv => ⟨kv.1, formatBytes kv.2 2⟩) := by
  induction outputs generalizing acc with
  | nil => simp
  | cons o os ih =>
    cases h : strContains o.1 "map" with
    | true => simp [List.foldl_cons, h, ih, List.filter_cons]
    | false => simp [List.foldl_cons, h, ih, List.filter_cons]

theorem collectOutputs_eq (outputs : List (String × Nat)) :
    collectOutputs outputs =
      (outputs.filter fun kv => !(strContains kv.1 "map")).map
        (fun kv => ⟨kv.1, formatBytes kv.2 2⟩) := by
  simpa [collectOutputs] using collectOutputs_foldl outputs []

theorem writeAssets_single (build : String → BuildOutcome) (E : String) (t : DepIndex) :
    writeAssets build [E] t =
      (recordInputs t (build E).inputs E, collectOutputs (build E).outputs) := by
  simp [writeAssets]

/-! ## Entry Point Discovery

Embeds `findFilesRecursively` (`src/index.js` lines 212–232) and
`findEntryPoints` (lines 234–245).  The filesystem is explicit: a directory
listing is a list of named entries, each a file or a subdirectory with its
own listing; `join` is POSIX `/` concatenation.  The traversal pushes each
file's full path and recurses into subdirectories in enumeration order. -/

/-- A filesystem entry as seen by `readdir`/`stat`: a plain file or a
directory with its own listing. -/
inductive FsEntry where
  | file (name : String)
  | dir (name : String) (children : List FsEntry)

/-- Embeds `join(dir, entry)` for simple names. -/
def pathJoin (d n : String) : String := d ++ "/" ++ n

/-- Embeds `traverseDirectory`: files of the current listing in order,
descending into subdirectory listings at their position. -/
def traverseDirectory (dir : String) : List FsEntry → List String
  | [] => []
  | .file n :: rest => pathJoin dir n :: traverseDirectory dir rest
  | .dir n children :: rest =>
      traverseDirectory (pathJoin dir n) children ++ traverseDirectory dir rest

/-- Embeds `findFilesRecursively(directory)` over the explicit listing. -/
def findFilesRecursively (directory : String) (listing : List FsEntry) : List String :=
  traverseDirectory directory listing

/-- The filter of `findEntryPoints` (`src/index.js` lines 238–240):
`file.includes("index") && exts.some((ext) => file.endsWith(ext))`. -/
def entryPointFilter (exts : List String) (file : String) : Bool :=
  strContains file "index" && exts.any (fun ext => strEndsWith file ext)

/-- Embeds `findEntryPoints(entryPointPath, exts)` over the explicit
listing (the error path merely propagates a traversal failure and is not
modelled: the traversal here is total). -/
def findEntryPoints (entryPointPath : String) (listing : List FsEntry)
    (exts : List String) : List String :=
  (findFilesRecursively entryPointPath listing).filter (entryPointFilter exts)

/-- Modelled from the spec: the base name of a path is its final `/`
separated component (the spec's root-entry convention speaks of
"contains 'index' in the base name"; the code has no such helper). -/
def baseName (p : String) : String :=
  String.mk ((p.data.reverse.takeWhile fun c => c != '/').reverse)

/-! ## Change Router and Notification Coordinator

Embeds the `watcher.on("all", ...)` handler (`src/index.js` lines
401–435).  The websocket transport is external: its client set appears as
a list of clients, each with the numeric `readyState` of the `ws` library
(`OPEN = 1`).  One handler activation is modelled as the pair of the entry
points handed to the Build Executor and the `(client id, message)` sends
performed. -/

/-- A connected client as enumerated by `wss.clients`. -/
structure Client where
  id : Nat
  readyState : Nat
deriving DecidableEq

/-- The `ws` library constant `WebSocket.OPEN`. -/
def wsOPEN : Nat := 1

/-- Broadcast a message to every client whose transport is currently open
(`wss.clients.forEach` guarded by `readyState === WebSocket.OPEN`). -/
def broadcast (clients : List Client) (msg : String) : List (Nat × String) :=
  (clients.filter fun c => c.readyState == wsOPEN).map fun c => (c.id, msg)

/-- What one activation of the change handler does: the entry points
passed to `writeAssets` and the messages sent, in order. -/
structure StepResult where
  builds : List String
  sends : List (Nat × String)
deriving DecidableEq

/-- Embeds one activation of the `watcher.on("all")` handler for a change
event carrying `path`, against Dependency Index `t` and the transport's
client list.  The `.hbs` block broadcasts a reload signal without
building; the `.css`/`.js`/`.ts` block resolves the owning entry point
(the path itself when it matches `index\.(css|js|ts)$`, else the
Dependency Index) and, when resolved, builds exactly that entry and
broadcasts the changed path. -/
def watcherStep (t : DepIndex) (clients : List Client) (path : String) : StepResult :=
  let afterHbs : StepResult :=
    if strEndsWith path ".hbs" then
      ⟨[], broadcast clients ("HBS changed: " ++ path)⟩
    else ⟨[], []⟩
  if strEndsWith path ".css" || strEndsWith path ".js" || strEndsWith path ".ts" then
    match resolve t path with
    | none => afterHbs
    | some rootFile =>
        ⟨afterHbs.builds ++ [rootFile],
         afterHbs.sends ++ broadcast clients ("File changed: " ++ path)⟩
  else afterHbs

/-- The coordinator's cached view of the most recent client metadata
message (`siteData`); each field is `none` when the parsed object lacks
the key (JavaScript `undefined` after destructuring). -/
structure SiteData where
  url : Option String
  title : Option String
  version : Option String
deriving DecidableEq

/-- Property lookup on a parsed JSON object, last duplicate key winning as
in `JSON.parse`. -/
def lookupField (obj : List (String × String)) (k : String) : Option String :=
  (obj.reverse.find? fun p => p.1 == k).map fun p => p.2

set_option linter.unusedVariables false in
/-- Embeds the inbound-message handler (`src/index.js` lines 445–448):
destructure `JSON.parse(message)` into url, title, version and assign a
fresh object to `siteData`.
`JSON.parse` is a platform capability, so the handler takes its outcome:
`.ok obj` for a message parsing to an object with string fields, `.error`
for a parse failure.  The handler installs no recovery, so a parse
failure propagates out (`Except.error`); on success the cached value is
replaced wholesale with the three destructured fields. -/
def onClientMessage (parsed : Except String (List (String × String)))
    (siteData : Option SiteData) : Except String (Option SiteData) :=
  match parsed with
  | .error e => .error e
  | .ok obj =>
      .ok (some ⟨lookupField obj "url", lookupField obj "title", lookupField obj "version"⟩)

/-! ## Connection-health timer

Embeds the 5000ms grace timer of `initWs` (`src/index.js` lines 388–392
and 437–443) as a trace semantics.  Real time is abstracted into event
order: `timerFire` is the timeout callback running at the 5000ms mark
(possible only while the timeout is pending), `connect` is a client
connection (which runs `clearTimeout`), and `watchEvent` stands for any
other activity (file changes, messages), which touches neither the timer
nor the connection display. -/

/-- Events relevant to the connection-health display. -/
inductive WsEvent where
  | timerFire
  | connect
  | watchEvent
deriving DecidableEq

/-- Display/timer state of `initWs`: whether the timeout is still
pending, whether the "no connection" header was ever rendered, whether
the "connected" header was rendered, and the `firstConnection` flag. -/
structure WsUiState where
  timerActive : Bool
  noConnectionShown : Bool
  connectedShown : Bool
  firstConnection : Bool
deriving DecidableEq

/-- State at `initWs` startup: timeout armed (line 388), nothing shown,
`firstConnection = true` (line 399). -/
def wsInit : WsUiState := ⟨true, false, false, true⟩

/-- One event: the timeout callback renders the "no connection" header
and the timeout is spent; a connection clears the timeout and renders
"connected" on the first connection; other activity leaves this state
alone. -/
def wsStep (s : WsUiState) : WsEvent → WsUiState
  | .timerFire =>
      if s.timerActive then
        { s with timerActive := false, noConnectionShown := true }
      else s
  | .connect =>
      { s with timerActive := false,
               connectedShown := s.connectedShown || s.firstConnection,
               firstConnection := false }
  | .watchEvent => s

/-- A run of `initWs` display handling over an event trace. -/
def wsRun (s : WsUiState) (events : List WsEvent) : WsUiState :=
  events.foldl wsStep s

theorem strEndsWith_of_split (s p q : String) (a : List Char)
    (hsplit : p.data = a ++ q.data) (h : strEndsWith s p = true) :
    strEndsWith s q = true := by
  rcases (strEndsWith_iff s p).1 h with ⟨u, hu⟩
  exact (strEndsWith_iff s q).2 ⟨u ++ a, by rw [hu, hsplit, List.append_assoc]⟩

theorem strContains_of_endsWith_split (s p pat : String) (a b : List Char)
    (hsplit : p.data = a ++ pat.data ++ b) (h : strEndsWith s p = true) :
    strContains s pat = true := by
  rcases (strEndsWith_iff s p).1 h with ⟨u, hu⟩
  refine (strContains_iff s pat).2 ⟨u ++ a, b, ?_⟩
  rw [hu, hsplit]
  simp [List.append_assoc]

theorem wsRun_append (s : WsUiState) (l1 l2 : List WsEvent) :
    wsRun s (l1 ++ l2) = wsRun (wsRun s l1) l2 := by
  simp [wsRun, List.foldl_append]

theorem wsRun_id (l : List WsEvent) (s : WsUiState)
    (hc : WsEvent.connect ∉ l) (ht : WsEvent.timerFire ∉ l) : wsRun s l = s := by
  induction l generalizing s with
  | nil => rfl
  | cons e es ih =>
    cases e with
    | timerFire => exact absurd (List.mem_cons_self _ _) ht
    | connect => exact absurd (List.mem_cons_self _ _) hc
    | watchEvent =>
      have : wsRun s (WsEvent.watchEvent :: es) = wsRun s es := rfl
      rw [this]
      exact ih s (fun hm => hc (List.mem_cons_of_mem _ hm))
        (fun hm => ht (List.mem_cons_of_mem _ hm))

theorem wsRun_noConn_of_no_timerFire (l : List WsEvent) (s : WsUiState)
    (ht : WsEvent.timerFire ∉ l) :
    (wsRun s l).noConnectionShown = s.noConnectionShown := by
  induction l generalizing s with
  | nil => rfl
  | cons e es ih =>
    have hrest : WsEvent.timerFire ∉ es := fun hm => ht (List.mem_cons_of_mem _ hm)
    cases e with
    | timerFire => exact absurd (List.mem_cons_self _ _) ht
    | connect =>
      have hstep : wsRun s (WsEvent.connect :: es) = wsRun (wsStep s WsEvent.connect) es := rfl
      rw [hstep, ih _ hrest]
      simp [wsStep]
    | watchEvent =>
      have hstep : wsRun s (WsEvent.watchEvent :: es) = wsRun s es := rfl
      rw [hstep]
      exact ih s hrest

theorem wsRun_inactive_invariant (l : List WsEvent) (s : WsUiState)
    (h1 : s.timerActive = false) (h2 : s.noConnectionShown = false) :
    (wsRun s l).timerActive = false ∧ (wsRun s l).noConnectionShown = false := by
  induction l generalizing s with
  | nil => exact ⟨h1, h2⟩
  | cons e es ih =>
    cases e with
    | timerFire =>
      have hstep : wsRun s (WsEvent.timerFire :: es) = wsRun (wsStep s WsEvent.timerFire) es := rfl
      rw [hstep]
      have : wsStep s WsEvent.timerFire = s := by simp [wsStep, h1]
      rw [this]
      exact ih s h1 h2
    | connect =>
      have hstep : wsRun s (WsEvent.connect :: es) = wsRun (wsStep s WsEvent.connect) es := rfl
      rw [hstep]
      exact ih _ rfl h2
    | watchEvent =>
      have hstep : wsRun s (WsEvent.watchEvent :: es) = wsRun s es := rfl
      rw [hstep]
      exact ih s h1 h2

theorem writeAssets_foldl_snd (build : String → BuildOutcome)
    (entries : List String) (start : DepIndex × List FileVal) :
    (entries.foldl
        (fun acc entry =>
          let res := build entry
          (recordInputs acc.1 res.inputs entry, acc.2 ++ collectOutputs res.outputs))
        start).2 =
      start.2 ++ entries.flatMap fun e => collectOutputs (build e).outputs := by
  induction entries generalizing start with
  | nil => simp
  | cons e es ih =>
    rw [List.foldl_cons, ih]
    simp

theorem writeAssets_results (build : String → BuildOutcome)
    (entries : List String) (t : DepIndex) :
    (writeAssets build entries t).2 =
      entries.flatMap fun e =>
        ((build e).outputs.filter fun kv => !(strContains kv.1 "map")).map
          (fun kv => ⟨kv.1, formatBytes kv.2 2⟩) := by
  unfold writeAssets
  rw [writeAssets_foldl_snd]
  simp only [List.nil_append]
  apply List.flatMap_congr
  intro e _
  exact collectOutputs_eq (build e).outputs

/-! ## The claims -/

/-- C1: after a successful build of an entry point `E` whose bundler
invocation reports input set `I`, the Dependency Index maps every path of
`I` to `E` (overwriting any prior owner), and resolving a path that was
never recorded and does not match the root-entry convention yields
unresolved. -/
theorem claim1_record_and_resolve
    (build : String → BuildOutcome) (t : DepIndex) (E q : String)
    (hq1 : q ∉ (build E).inputs) (hq2 : q ∉ treeKeys t)
    (hq3 : isRootEntry q = false) :
    (∀ p ∈ (build E).inputs, treeGet (writeAssets build [E] t).1 p = some E)
    ∧ resolve (writeAssets build [E] t).1 q = none := by
  have hw : (writeAssets build [E] t).1 = recordInputs t (build E).inputs E := by
    rw [writeAssets_single]
  rw [hw]
  constructor
  · intro p hp
    rw [treeGet_recordInputs, if_pos hp]
  · unfold resolve
    rw [hq3]
    simp only [Bool.false_eq_true, if_false]
    rw [treeGet_recordInputs, if_neg hq1]
    exact (treeGet_eq_none_iff t q).2 hq2

/-- C1 witness: building `assets/js/index.js` with reported inputs
a, b, c records all three under that entry, and an unknown non-root path
stays unresolved. -/
theorem claim1_record_and_resolve_witness :
    treeGet (writeAssets (fun _ => ⟨["a", "b", "c"], []⟩) ["assets/js/index.js"] []).1 "b" =
        some "assets/js/index.js"
    ∧ resolve (writeAssets (fun _ => ⟨["a", "b", "c"], []⟩) ["assets/js/index.js"] []).1
        "assets/css/other.css" = none :=
  ⟨(claim1_record_and_resolve (fun _ => ⟨["a", "b", "c"], []⟩) [] "assets/js/index.js"
      "assets/css/other.css" (by decide) (by decide) (by decide)).1 "b" (by decide),
   (claim1_record_and_resolve (fun _ => ⟨["a", "b", "c"], []⟩) [] "assets/js/index.js"
      "assets/css/other.css" (by decide) (by decide) (by decide)).2⟩

/-- C2: the Dependency Index keeps at most one owner per input path (its
key list stays duplicate-free across builds), a rebuild never deletes an
entry — a previously owned input `x` that is no longer consumed keeps its
stale mapping — and an input consumed by the latest build maps to that
build's entry point. -/
theorem claim2_single_owner_no_deletion
    (build : String → BuildOutcome) (t : DepIndex) (E x : String) :
    ((treeKeys t).Nodup → (treeKeys (writeAssets build [E] t).1).Nodup)
    ∧ (x ∉ (build E).inputs →
        treeGet (writeAssets build [E] t).1 x = treeGet t x)
    ∧ (x ∈ (build E).inputs →
        treeGet (writeAssets build [E] t).1 x = some E) := by
  have hw : (writeAssets build [E] t).1 = recordInputs t (build E).inputs E := by
    rw [writeAssets_single]
  rw [hw]
  refine ⟨treeKeys_recordInputs_nodup t _ E, ?_, ?_⟩
  · intro hx
    rw [treeGet_recordInputs, if_neg hx]
  · intro hx
    rw [treeGet_recordInputs, if_pos hx]

/-- C2 witness: rebuilding the entry that used to own `x` with `x` no
longer among the inputs leaves the stale mapping of `x` in place, and the
key list stays duplicate-free. -/
theorem claim2_single_owner_no_deletion_witness :
    (treeKeys (writeAssets (fun _ => ⟨["a"], []⟩) ["E"] [("x", "E")]).1).Nodup
    ∧ treeGet (writeAssets (fun _ => ⟨["a"], []⟩) ["E"] [("x", "E")]).1 "x" =
        treeGet [("x", "E")] "x" :=
  ⟨(claim2_single_owner_no_deletion (fun _ => ⟨["a"], []⟩) [("x", "E")] "E" "x").1 (by decide),
   (claim2_single_owner_no_deletion (fun _ => ⟨["a"], []⟩) [("x", "E")] "E" "x").2.1 (by decide)⟩

/-- C4: `formatBytes` yields "0 Bytes" for zero input at any decimal
count, and formats at the 1024 scale in binary units: 1024 bytes is
"1 KiB" at the default 2 decimals and 1536 bytes at 1 decimal is
"1.5 KiB". -/
theorem claim4_formatBytes_values :
    (∀ d : Int, formatBytes 0 d = "0 Bytes")
    ∧ formatBytes 1024 2 = "1 KiB"
    ∧ formatBytes 1536 1 = "1.5 KiB" :=
  ⟨fun _ => rfl, by decide, by decide⟩

/-- C5 counterexample: an output artifact whose path contains the
substring "map" without being a source-map file — here an entry bundle
named `mapindex.js`, which is a legitimate entry name since it contains
"index" — is dropped from the result list even though the claim requires
every non-source-map artifact to be reported. -/
theorem claim5_map_substring_counterexample :
    collectOutputs [("assets/built/js/mapindex.js", 100)] = []
    ∧ strEndsWith "assets/built/js/mapindex.js" ".map" = false
    ∧ entryPointFilter [".ts", ".js"] "assets/js/mapindex.js" = true :=
  ⟨by decide, by decide, by decide⟩

/-- C5 (amended): the result list of a completed build contains a pair
(artifact path, size formatted at 2 decimals) for exactly those output
artifacts whose path does not contain the substring "map"; this excludes
every source-map file (their paths end in ".map") but also any other
artifact whose path merely contains "map". -/
theorem claim5_output_collection (build : String → BuildOutcome)
    (entries : List String) (t : DepIndex) :
    (writeAssets build entries t).2 =
      entries.flatMap fun e =>
        ((build e).outputs.filter fun kv => !(strContains kv.1 "map")).map
          (fun kv => ⟨kv.1, formatBytes kv.2 2⟩) :=
  writeAssets_results build entries t

/-- C3 counterexample: the discovery filter tests the WHOLE path for the
substring "index", not the base name.  A file `foo.js` inside a directory
named `index` is returned by `findEntryPoints` although its base name
contains no "index". -/
theorem claim3_base_name_counterexample :
    "assets/js/index/foo.js" ∈
        findEntryPoints "assets/js" [FsEntry.dir "index" [FsEntry.file "foo.js"]] [".ts", ".js"]
    ∧ strContains (baseName "assets/js/index/foo.js") "index" = false
    ∧ strEndsWith "assets/js/index/foo.js" ".js" = true := by
  refine ⟨?_, by decide, by decide⟩
  simp only [findEntryPoints, findFilesRecursively, traverseDirectory, pathJoin]
  decide

/-- C3 (amended): Entry Point Discovery returns exactly the files under
the root (at any depth) whose FULL PATH contains the substring "index"
and whose extension is in the recognized set, each such file exactly once
(when the enumerated paths are distinct). -/
theorem claim3_full_path_filter (root : String) (listing : List FsEntry)
    (exts : List String) (f : String) :
    (f ∈ findEntryPoints root listing exts ↔
      f ∈ findFilesRecursively root listing ∧ strContains f "index" = true
        ∧ ∃ ext ∈ exts, strEndsWith f ext = true)
    ∧ ((findFilesRecursively root listing).Nodup →
        (findEntryPoints root listing exts).count f ≤ 1) := by
  constructor
  · unfold findEntryPoints
    rw [List.mem_filter]
    unfold entryPointFilter
    simp [List.any_eq_true, and_assoc]
  · intro h
    have hnd : (findEntryPoints root listing exts).Nodup :=
      List.Nodup.filter _ h
    exact List.nodup_iff_count_le_one.1 hnd f

/-- C3 witness: on a root containing a single root-convention file the
characterization applies and the file is listed exactly once. -/
theorem claim3_full_path_filter_witness :
    ("assets/js/index.js" ∈
        findEntryPoints "assets/js" [FsEntry.file "index.js"] [".ts", ".js"]
      ↔ "assets/js/index.js" ∈
          findFilesRecursively "assets/js" [FsEntry.file "index.js"]
        ∧ strContains "assets/js/index.js" "index" = true
        ∧ ∃ ext ∈ [".ts", ".js"], strEndsWith "assets/js/index.js" ext = true)
    ∧ (findEntryPoints "assets/js" [FsEntry.file "index.js"] [".ts", ".js"]).count
        "assets/js/index.js" ≤ 1 :=
  ⟨(claim3_full_path_filter "assets/js" [FsEntry.file "index.js"] [".ts", ".js"]
      "assets/js/index.js").1,
   (claim3_full_path_filter "assets/js" [FsEntry.file "index.js"] [".ts", ".js"]
      "assets/js/index.js").2
      (by simp only [findFilesRecursively, traverseDirectory, pathJoin]; decide)⟩

theorem hbs_false_of_script_style (path : String)
    (h : (strEndsWith path ".css" || strEndsWith path ".js" || strEndsWith path ".ts") = true) :
    strEndsWith path ".hbs" = false := by
  have hsplit : strEndsWith path ".css" = true ∨ strEndsWith path ".js" = true
      ∨ strEndsWith path ".ts" = true := by simpa [or_assoc] using h
  rcases hsplit with h' | h' | h'
  · exact strEndsWith_exclusive path ".css" ".hbs" (by decide) (by decide) h'
  · exact strEndsWith_exclusive path ".js" ".hbs" (by decide) (by decide) h'
  · exact strEndsWith_exclusive path ".ts" ".hbs" (by decide) (by decide) h'

/-- C6: a change event whose path ends in the template extension `.hbs`
never invokes the Build Executor, and the message sent to exactly the
clients whose transport is open is the string "HBS changed: " followed by
the changed path. -/
theorem claim6_template_change (t : DepIndex) (clients : List Client) (path : String)
    (h : strEndsWith path ".hbs" = true) :
    watcherStep t clients path =
      ⟨[], (clients.filter fun c => c.readyState == wsOPEN).map
              fun c => (c.id, "HBS changed: " ++ path)⟩ := by
  have hcss : strEndsWith path ".css" = false :=
    strEndsWith_exclusive path ".hbs" ".css" (by decide) (by decide) h
  have hjs : strEndsWith path ".js" = false :=
    strEndsWith_exclusive path ".hbs" ".js" (by decide) (by decide) h
  have hts : strEndsWith path ".ts" = false :=
    strEndsWith_exclusive path ".hbs" ".ts" (by decide) (by decide) h
  simp [watcherStep, broadcast, h, hcss, hjs, hts]

/-- C6 witness: a template change with one open and one closed client
builds nothing and sends the reload message to the open client only. -/
theorem claim6_template_change_witness :
    watcherStep [] [⟨0, 1⟩, ⟨1, 3⟩] "default.hbs" =
      ⟨[], [(0, "HBS changed: default.hbs")]⟩ :=
  (claim6_template_change [] [⟨0, 1⟩, ⟨1, 3⟩] "default.hbs" (by decide)).trans (by decide)

/-- C7: for a change event whose path ends in a script or style
extension: when the path neither matches the root-entry convention nor
has a recorded owner, the event is dropped (no build, no send); otherwise
exactly one build of the resolved entry point happens and the message
sent to exactly the open clients is "File changed: " followed by the
changed path (not the entry point's path). -/
theorem claim7_script_style_routing (t : DepIndex) (clients : List Client) (path : String)
    (h : (strEndsWith path ".css" || strEndsWith path ".js" || strEndsWith path ".ts") = true) :
    (isRootEntry path = false → treeGet t path = none →
        watcherStep t clients path = ⟨[], []⟩)
    ∧ ∀ E, resolve t path = some E →
        watcherStep t clients path =
          ⟨[E], (clients.filter fun c => c.readyState == wsOPEN).map
                  fun c => (c.id, "File changed: " ++ path)⟩ := by
  have hhbs : strEndsWith path ".hbs" = false := hbs_false_of_script_style path h
  constructor
  · intro hroot hget
    have hres : resolve t path = none := by simp [resolve, hroot, hget]
    simp [watcherStep, h, hhbs, hres]
  · intro E hres
    simp [watcherStep, broadcast, h, hhbs, hres]

/-- C7 witness: a style file previously recorded under the css root entry
triggers exactly one build of that entry and the broadcast carries the
changed file's path; an unknown style file is dropped. -/
theorem claim7_script_style_routing_witness :
    watcherStep [("assets/css/screen.css", "assets/css/index.css")] [⟨0, 1⟩]
        "assets/css/screen.css" =
      ⟨["assets/css/index.css"], [(0, "File changed: assets/css/screen.css")]⟩
    ∧ watcherStep [] [⟨0, 1⟩] "assets/css/unknown.css" = ⟨[], []⟩ :=
  ⟨((claim7_script_style_routing [("assets/css/screen.css", "assets/css/index.css")] [⟨0, 1⟩]
        "assets/css/screen.css" (by decide)).2 "assets/css/index.css" (by decide)).trans
      (by decide),
   (claim7_script_style_routing [] [⟨0, 1⟩] "assets/css/unknown.css" (by decide)).1
      (by decide) (by decide)⟩

/-- C8: an inbound client metadata message that parses replaces the
cached SiteSession wholesale with the url/title/version of that message —
the result never depends on the previously cached value — and a message
that fails to parse propagates the parse failure uncaught. -/
theorem claim8_session_replacement (parsed : Except String (List (String × String)))
    (old1 old2 : Option SiteData) :
    onClientMessage parsed old1 = onClientMessage parsed old2
    ∧ (∀ obj, parsed = Except.ok obj →
        onClientMessage parsed old1 =
          Except.ok (some ⟨lookupField obj "url", lookupField obj "title",
            lookupField obj "version"⟩))
    ∧ (∀ e, parsed = Except.error e →
        onClientMessage parsed old1 = Except.error e) := by
  cases parsed with
  | error e =>
    refine ⟨rfl, ?_, ?_⟩
    · intro obj hobj
      cases hobj
    · intro e' he
      cases he
      rfl
  | ok obj =>
    refine ⟨rfl, ?_, ?_⟩
    · intro obj' hobj
      cases hobj
      rfl
    · intro e he
      cases he

/-- C8 witness: a concrete metadata message replaces a previously cached
session unchanged by the old value's contents, and a concrete parse
failure surfaces as the error itself. -/
theorem claim8_session_replacement_witness :
    onClientMessage
        (Except.ok [("url", "http://localhost:2368"), ("title", "My Site"), ("version", "5.82")])
        (some ⟨some "http://old", none, none⟩) =
      Except.ok (some ⟨some "http://localhost:2368", some "My Site", some "5.82"⟩)
    ∧ onClientMessage (Except.error "Unexpected token") none =
        Except.error "Unexpected token" :=
  ⟨((claim8_session_replacement
        (Except.ok [("url", "http://localhost:2368"), ("title", "My Site"), ("version", "5.82")])
        (some ⟨some "http://old", none, none⟩) none).2.1 _ rfl).trans (by rfl),
   (claim8_session_replacement (Except.error "Unexpected token") none none).2.2 _ rfl⟩

/-- C9: when the timeout callback runs with no client having connected in
the grace period, the "no connection" status is displayed; a client
connection clears the pending timeout, and in every run in which a
connection precedes the timeout moment the "no connection" status is
never displayed. -/
theorem claim9_connection_timer (pre post : List WsEvent)
    (h1 : WsEvent.timerFire ∉ pre) :
    (WsEvent.connect ∉ pre →
        (wsRun wsInit (pre ++ [WsEvent.timerFire])).noConnectionShown = true)
    ∧ (wsRun wsInit (pre ++ [WsEvent.connect])).timerActive = false
    ∧ (wsRun wsInit (pre ++ WsEvent.connect :: post)).noConnectionShown = false := by
  refine ⟨?_, ?_, ?_⟩
  · intro hc
    rw [wsRun_append, wsRun_id pre wsInit hc h1]
    rfl
  · rw [wsRun_append]
    rfl
  · rw [show pre ++ WsEvent.connect :: post = (pre ++ [WsEvent.connect]) ++ post by simp,
      wsRun_append, wsRun_append]
    have hpre := wsRun_noConn_of_no_timerFire pre wsInit h1
    have h2 : (wsRun (wsRun wsInit pre) [WsEvent.connect]).timerActive = false := rfl
    have h3 : (wsRun (wsRun wsInit pre) [WsEvent.connect]).noConnectionShown = false := by
      have hs : wsRun (wsRun wsInit pre) [WsEvent.connect] =
          wsStep (wsRun wsInit pre) WsEvent.connect := rfl
      rw [hs]
      simpa [wsStep] using hpre
    exact (wsRun_inactive_invariant post _ h2 h3).2

/-- C9 witness: with only watcher activity before the timeout moment the
"no connection" status is displayed, while a connection before that
moment keeps it hidden for the rest of the run. -/
theorem claim9_connection_timer_witness :
    (wsRun wsInit ([WsEvent.watchEvent] ++ [WsEvent.timerFire])).noConnectionShown = true
    ∧ (wsRun wsInit ([WsEvent.watchEvent] ++ WsEvent.connect :: [WsEvent.timerFire])).noConnectionShown
        = false :=
  ⟨(claim9_connection_timer [WsEvent.watchEvent] [WsEvent.timerFire] (by decide)).1 (by decide),
   (claim9_connection_timer [WsEvent.watchEvent] [WsEvent.timerFire] (by decide)).2.2⟩

/-- C10: the Change Router treats a changed script/style path as its own
entry point exactly when it ends with "index.css", "index.js" or
"index.ts"; with nothing recorded in the Dependency Index every other
qualifying path is dropped; every router root entry passes the discovery
filter for its extension set, while "index-helpers.js" passes the
discovery filter yet is not a router root entry — the router's root-entry
predicate is strictly narrower than discovery's. -/
theorem claim10_router_narrower (path : String) (clients : List Client)
    (h : (strEndsWith path ".css" || strEndsWith path ".js" || strEndsWith path ".ts") = true) :
    ((watcherStep [] clients path).builds = if isRootEntry path then [path] else [])
    ∧ (isRootEntry path = true →
        entryPointFilter [".ts", ".js"] path = true ∨ entryPointFilter [".css"] path = true)
    ∧ (entryPointFilter [".ts", ".js"] "assets/js/index-helpers.js" = true
        ∧ isRootEntry "assets/js/index-helpers.js" = false
        ∧ watcherStep [] clients "assets/js/index-helpers.js" = ⟨[], []⟩) := by
  have hhbs : strEndsWith path ".hbs" = false := hbs_false_of_script_style path h
  refine ⟨?_, ?_, by decide, by decide, ?_⟩
  · cases hroot : isRootEntry path with
    | true => simp [watcherStep, resolve, h, hhbs, hroot]
    | false => simp [watcherStep, resolve, h, hhbs, hroot, treeGet_nil]
  · intro hr
    have hr' : strEndsWith path "index.css" = true ∨ strEndsWith path "index.js" = true
        ∨ strEndsWith path "index.ts" = true := by
      simpa [isRootEntry, or_assoc] using hr
    rcases hr' with h1 | h1 | h1
    · right
      have hc : strContains path "index" = true :=
        strContains_of_endsWith_split path "index.css" "index" [] ".css".data (by decide) h1
      have he : strEndsWith path ".css" = true :=
        strEndsWith_of_split path "index.css" ".css" "index".data (by decide) h1
      simp [entryPointFilter, hc, he]
    · left
      have hc : strContains path "index" = true :=
        strContains_of_endsWith_split path "index.js" "index" [] ".js".data (by decide) h1
      have he : strEndsWith path ".js" = true :=
        strEndsWith_of_split path "index.js" ".js" "index".data (by decide) h1
      simp [entryPointFilter, hc, he]
    · left
      have hc : strContains path "index" = true :=
        strContains_of_endsWith_split path "index.ts" "index" [] ".ts".data (by decide) h1
      have he : strEndsWith path ".ts" = true :=
        strEndsWith_of_split path "index.ts" ".ts" "index".data (by decide) h1
      simp [entryPointFilter, hc, he]
  · have hr : isRootEntry "assets/js/index-helpers.js" = false := by decide
    have hh : strEndsWith "assets/js/index-helpers.js" ".hbs" = false := by decide
    have hq : (strEndsWith "assets/js/index-helpers.js" ".css"
        || strEndsWith "assets/js/index-helpers.js" ".js"
        || strEndsWith "assets/js/index-helpers.js" ".ts") = true := by decide
    simp [watcherStep, resolve, hr, hh, hq, treeGet_nil]

/-- C10 witness: a root-convention stylesheet builds itself while the
discovery-qualifying "index-helpers.js" is dropped by the router. -/
theorem claim10_router_narrower_witness :
    ((watcherStep [] [⟨0, 1⟩] "assets/css/index.css").builds =
        if isRootEntry "assets/css/index.css" then ["assets/css/index.css"] else [])
    ∧ entryPointFilter [".ts", ".js"] "assets/js/index-helpers.js" = true
    ∧ isRootEntry "assets/js/index-helpers.js" = false
    ∧ watcherStep [] [⟨0, 1⟩] "assets/js/index-helpers.js" = ⟨[], []⟩ :=
  ⟨(claim10_router_narrower "assets/css/index.css" [⟨0, 1⟩] (by decide)).1,
   (claim10_router_narrower "assets/css/index.css" [⟨0, 1⟩] (by decide)).2.2⟩
